import Mathlib

/-!
Shallow embedding of the comment-removal core of `src/main.py`
(class `CommentRemoverLogic`).

Strings are modelled as `String` / `List Char`.  The regular expressions of
the source are modelled by their lexical meaning on raw text:

* a single-line pattern `T.*$` (with `T` one of `#`, `//`, `--`), applied by
  `re.sub(pat, '', line)` to a line that contains no newline, deletes
  everything from the first occurrence of `T` to the end of the line
  (`stripLineComment`);
* a block pattern `A(.|\n)*?B` (non-greedy), applied by
  `re.sub(pat, '', text)`, repeatedly deletes the leftmost occurrence of
  `A`, the shortest stretch of arbitrary characters after it, and the
  nearest following `B`, scanning left to right over the remaining text
  (`reSubBlock`); an alternation of two block patterns tries the first
  alternative first at each position (`tryBlockAt`);
* `re.sub(r'\n{3,}', '\n\n', text)` collapses every run of three or more
  newlines to exactly two, left to right (`collapseNl`);
* `str.strip()` removes leading and trailing whitespace (`pyStrip`); the
  whitespace class is modelled by the six ASCII whitespace characters
  recognized by Python (space, tab, newline, carriage return, vertical
  tab, form feed); `str.lower` is modelled by ASCII lowercasing.

Bounded recursions that consume the string from the left use an explicit
fuel argument equal to the length of the input, so that every definition is
structurally recursive and computable by kernel reduction.
-/

namespace CommentRemover

/-- The apostrophe character, used by the Python triple-quote block tokens. -/
def sq : Char := Char.ofNat 39

/-- Whitespace test of Python `str.strip()` / `str.isspace()` restricted to
the six ASCII whitespace characters. -/
def pyIsSpace (c : Char) : Bool :=
  c = ' ' || c = '\t' || c = '\n' || c = '\r' || c = Char.ofNat 11 || c = Char.ofNat 12

/-- `line.strip()` is empty, i.e. the line consists only of whitespace. -/
def isAllWhite (l : List Char) : Bool :=
  l.all pyIsSpace

/-- Python `str.strip()`: drop whitespace from both ends. -/
def pyStrip (l : List Char) : List Char :=
  List.rdropWhile pyIsSpace (List.dropWhile pyIsSpace l)

/-- `text.split('\n')`: split into lines at newline characters.  Like the
Python method, the result is never empty and has one more element than the
number of newlines. -/
def splitNl : List Char → List (List Char)
  | [] => [[]]
  | c :: cs =>
    if c = '\n' then [] :: splitNl cs
    else
      match splitNl cs with
      | [] => [[c]]
      | l :: ls => (c :: l) :: ls

/-- `'\n'.join(lines)`: concatenate with single newline separators. -/
def joinNl : List (List Char) → List Char
  | [] => []
  | [l] => l
  | l :: ls => l ++ '\n' :: joinNl ls

/-- `re.sub(tok + '.*$', '', line)` on a newline-free line: delete from the
first occurrence of `tok` to the end of the line; a line without `tok` is
unchanged. -/
def stripLineComment (tok : List Char) : List Char → List Char
  | [] => []
  | c :: cs =>
    if tok.isPrefixOf (c :: cs) then []
    else c :: stripLineComment tok cs

/-- One iteration of the loop body of `remove_comments` over a line:
compute `is_originally_empty`, strip the single-line comment, and keep the
cleaned line iff it still has content or the line was originally blank. -/
def keepClean (tok : List Char) (line : List Char) : Option (List Char) :=
  let cleaned := stripLineComment tok line
  if !(isAllWhite cleaned) || isAllWhite line then some cleaned else none

/-- The single-line pass of `remove_comments`: split into lines, clean and
filter each line, and rejoin with newlines. -/
def singleLineStep (tok : List Char) (s : List Char) : List Char :=
  joinNl ((splitNl s).filterMap (keepClean tok))

/-- Delete through the first occurrence of `en` in `s`, returning the
remaining suffix, or `none` when `en` does not occur.  This is the
non-greedy `(.|\n)*?` followed by the end token `en`. -/
def dropThrough (en : List Char) : List Char → Option (List Char)
  | [] => if en.isPrefixOf ([] : List Char) then some [] else none
  | c :: cs =>
    if en.isPrefixOf (c :: cs) then some ((c :: cs).drop en.length)
    else dropThrough en cs

/-- Try to match one of the block alternatives at the current position:
the first pair `(st, en)` whose start token is a prefix here and whose end
token occurs later wins, and the suffix after the match is returned. -/
def tryBlockAt (pats : List (List Char × List Char)) (s : List Char) : Option (List Char) :=
  match pats with
  | [] => none
  | (st, en) :: rest =>
    if st.isPrefixOf s then
      match dropThrough en (s.drop st.length) with
      | some r => some r
      | none => tryBlockAt rest s
    else tryBlockAt rest s

/-- Fueled scanner of `re.sub(block_pattern, '', text)`: at each position
either delete a leftmost non-greedy block match and continue after it, or
emit one character and move on.  Every registry token is non-empty, so each
step consumes at least one character and fuel `s.length` never runs out. -/
def reSubBlockF (pats : List (List Char × List Char)) : Nat → List Char → List Char
  | _, [] => []
  | 0, s => s
  | fuel + 1, c :: cs =>
    match tryBlockAt pats (c :: cs) with
    | some rest => reSubBlockF pats fuel rest
    | none => c :: reSubBlockF pats fuel cs

/-- `re.sub(block_pattern, '', text)` for an alternation of block pairs. -/
def reSubBlock (pats : List (List Char × List Char)) (s : List Char) : List Char :=
  reSubBlockF pats s.length s

/-- Fueled scanner of `re.sub(r'\n{3,}', '\n\n', text)`: a newline followed
by at least two more newlines is dropped; every other character is kept.
Each maximal run of `k ≥ 3` newlines thus loses its first `k - 2`
characters, which is exactly the greedy left-to-right replacement of the
run by two newlines. -/
def collapseNlF : Nat → List Char → List Char
  | 0, s => s
  | _ + 1, [] => []
  | fuel + 1, c :: cs =>
    if c = '\n' ∧ cs.take 2 = ['\n', '\n'] then collapseNlF fuel cs
    else c :: collapseNlF fuel cs

/-- `re.sub(r'\n{3,}', '\n\n', text)`. -/
def collapseNl (s : List Char) : List Char :=
  collapseNlF s.length s

/-- A language profile of `CommentRemoverLogic.patterns`: the optional
`single_line` key holds the line-comment start token, the optional
`multi_line` key holds the alternatives of (block start, block end)
token pairs of the block regex. -/
structure LangPatterns where
  single_line : Option (List Char)
  multi_line : Option (List (List Char × List Char))

/-- The `self.patterns` table of `CommentRemoverLogic.__init__`. -/
def patterns : List (String × LangPatterns) :=
  [ ("Python",
      ⟨some "#".data, some [("\"\"\"".data, "\"\"\"".data), ([sq, sq, sq], [sq, sq, sq])]⟩),
    ("C/C++/Java/C#/JavaScript/Rust",
      ⟨some "//".data, some [("/*".data, "*/".data)]⟩),
    ("HTML/XML",
      ⟨none, some [("<!--".data, "-->".data)]⟩),
    ("SQL",
      ⟨some "--".data, some [("/*".data, "*/".data)]⟩),
    ("Lua",
      ⟨some "--".data, some [("--[[".data, "]]".data)]⟩) ]

/-- Dictionary lookup `self.patterns[language]` guarded by
`language in self.patterns`. -/
def patternsLookup (language : String) : Option LangPatterns :=
  List.lookup language patterns

/-- The `self.extension_map` table of `CommentRemoverLogic.__init__`. -/
def extension_map : List (String × String) :=
  [ (".py", "Python"), (".pyw", "Python"),
    (".c", "C/C++/Java/C#/JavaScript/Rust"), (".cpp", "C/C++/Java/C#/JavaScript/Rust"),
    (".h", "C/C++/Java/C#/JavaScript/Rust"), (".hpp", "C/C++/Java/C#/JavaScript/Rust"),
    (".java", "C/C++/Java/C#/JavaScript/Rust"), (".cs", "C/C++/Java/C#/JavaScript/Rust"),
    (".js", "C/C++/Java/C#/JavaScript/Rust"), (".ts", "C/C++/Java/C#/JavaScript/Rust"),
    (".rs", "C/C++/Java/C#/JavaScript/Rust"),
    (".html", "HTML/XML"), (".htm", "HTML/XML"), (".xml", "HTML/XML"),
    (".sql", "SQL"),
    (".lua", "Lua") ]

/-- Index of the last occurrence of `ch`, i.e. Python `str.rfind` with
`-1` encoded as `none`. -/
def rfindIdx (ch : Char) : List Char → Option Nat
  | [] => none
  | c :: cs =>
    match rfindIdx ch cs with
    | some i => some (i + 1)
    | none => if c = ch then some 0 else none

/-- The extension part of `os.path.splitext(p)` (POSIX separators): the
suffix of `p` from its last dot, provided that dot lies after the last
path separator and the basename does not consist solely of dots before
it; otherwise the empty string. -/
def splitextExt (p : List Char) : List Char :=
  match rfindIdx '.' p with
  | none => []
  | some d =>
    let s := match rfindIdx '/' p with
      | none => 0
      | some i => i + 1
    if s ≤ d then
      if ((p.drop s).take (d - s)).all (· = '.') then [] else p.drop d
    else []

/-- `CommentRemoverLogic.get_language_from_filename`: lowercase the
extension of the filename and look it up, with default `"Python"`. -/
def get_language_from_filename (filename : String) : String :=
  let ext := String.mk ((splitextExt filename.data).map Char.toLower)
  (List.lookup ext extension_map).getD "Python"

/-- Step 1 of `remove_comments`: block removal when a `multi_line` key is
present. -/
def blockStep (p : LangPatterns) (s : List Char) : List Char :=
  match p.multi_line with
  | some bps => reSubBlock bps s
  | none => s

/-- Step 2 of `remove_comments`: the per-line single-line removal and
line-keeping pass when a `single_line` key is present. -/
def lineStep (p : LangPatterns) (s : List Char) : List Char :=
  match p.single_line with
  | some tok => singleLineStep tok s
  | none => s

/-- Body of `CommentRemoverLogic.remove_comments` after the successful
registry lookup: block removal, then the single-line pass, then blank-run
collapsing, then the final strip. -/
def removeCommentsCore (p : LangPatterns) (s : List Char) : List Char :=
  pyStrip (collapseNl (lineStep p (blockStep p s)))

/-- `CommentRemoverLogic.remove_comments`: an unknown language identifier
returns the input unchanged, otherwise the four-step pipeline runs. -/
def remove_comments (code : String) (language : String) : String :=
  match patternsLookup language with
  | none => code
  | some p => String.mk (removeCommentsCore p code.data)

/-- All comment tokens of a language profile: the single-line token and
the block start and end tokens. -/
def langTokens (p : LangPatterns) : List (List Char) :=
  (match p.single_line with
    | some t => [t]
    | none => []) ++
  (match p.multi_line with
    | some bps => bps.map Prod.fst ++ bps.map Prod.snd
    | none => [])

/-! ### Lines: `splitNl` and `joinNl` -/

theorem splitNl_ne_nil (s : List Char) : splitNl s ≠ [] := by
  induction s with
  | nil => simp [splitNl]
  | cons c cs ih =>
    by_cases h : c = '\n'
    · simp [splitNl, h]
    · rcases hcs : splitNl cs with _ | ⟨l, ls⟩
      · exact absurd hcs ih
      · simp [splitNl, h, hcs]

theorem joinNl_cons_cons (a b : List Char) (t : List (List Char)) :
    joinNl (a :: b :: t) = a ++ '\n' :: joinNl (b :: t) := rfl

theorem splitNl_spec (s : List Char) :
    ∃ fst rest, splitNl s = fst :: rest ∧ fst <+: s ∧ '\n' ∉ fst ∧
      ∀ l ∈ rest, '\n' ∉ l ∧ l <:+: s := by
  induction s with
  | nil => exact ⟨[], [], rfl, ⟨[], rfl⟩, by simp, by simp⟩
  | cons c cs ih =>
    obtain ⟨fst, rest, hs, hpfx, hnl, hrest⟩ := ih
    by_cases h : c = '\n'
    · refine ⟨[], splitNl cs, by simp [splitNl, h], ⟨c :: cs, rfl⟩, by simp, ?_⟩
      intro l hl
      rw [hs] at hl
      rcases List.mem_cons.mp hl with rfl | hl
      · exact ⟨hnl, List.infix_cons hpfx.isInfix⟩
      · exact ⟨(hrest l hl).1, List.infix_cons (hrest l hl).2⟩
    · refine ⟨c :: fst, rest, by simp [splitNl, h, hs], List.cons_prefix_cons.mpr ⟨rfl, hpfx⟩,
        ?_, ?_⟩
      · simp [h, hnl]
        intro hc
        exact h hc.symm
      · intro l hl
        exact ⟨(hrest l hl).1, List.infix_cons (hrest l hl).2⟩

theorem mem_splitNl {s l : List Char} (hl : l ∈ splitNl s) : '\n' ∉ l ∧ l <:+: s := by
  obtain ⟨fst, rest, hs, hpfx, hnl, hrest⟩ := splitNl_spec s
  rw [hs] at hl
  rcases List.mem_cons.mp hl with rfl | hl
  · exact ⟨hnl, hpfx.isInfix⟩
  · exact hrest l hl

theorem joinNl_splitNl (s : List Char) : joinNl (splitNl s) = s := by
  induction s with
  | nil => rfl
  | cons c cs ih =>
    obtain ⟨a, t, ht⟩ := List.exists_cons_of_ne_nil (splitNl_ne_nil cs)
    by_cases h : c = '\n'
    · subst h
      have h1 : splitNl ('\n' :: cs) = [] :: splitNl cs := by simp [splitNl]
      rw [h1, ht, joinNl_cons_cons, ← ht, List.nil_append, ih]
    · have h1 : splitNl (c :: cs) = (c :: a) :: t := by simp [splitNl, h, ht]
      rw [h1]
      rcases t with _ | ⟨b, t2⟩
      · show c :: a = c :: cs
        rw [ht] at ih
        exact congrArg (c :: ·) ih
      · rw [joinNl_cons_cons, List.cons_append]
        rw [ht, joinNl_cons_cons] at ih
        rw [ih]

theorem filterMap_eq_self {α : Type} {L : List α} {f : α → Option α}
    (h : ∀ a ∈ L, f a = some a) : L.filterMap f = L := by
  induction L with
  | nil => rfl
  | cons a t ih =>
    rw [List.filterMap_cons, h a (List.mem_cons_self a t)]
    exact congrArg (a :: ·) (ih fun x hx => h x (List.mem_cons_of_mem a hx))

/-! ### The single-line pass -/

theorem slc_pfx (tok l : List Char) : stripLineComment tok l <+: l := by
  induction l with
  | nil => exact ⟨[], rfl⟩
  | cons c cs ih =>
    by_cases h : tok.isPrefixOf (c :: cs)
    · rw [stripLineComment, if_pos h]
      exact ⟨c :: cs, rfl⟩
    · rw [stripLineComment, if_neg h]
      exact List.cons_prefix_cons.mpr ⟨rfl, ih⟩

theorem slc_eq_self {tok l : List Char} (h : ¬ tok <:+: l) : stripLineComment tok l = l := by
  induction l with
  | nil => rfl
  | cons c cs ih =>
    have h1 : ¬ tok.isPrefixOf (c :: cs) = true := fun hp =>
      h (List.isPrefixOf_iff_prefix.mp hp).isInfix
    rw [stripLineComment, if_neg h1]
    exact congrArg (c :: ·) (ih fun hi => h (List.infix_cons hi))

theorem slc_not_ifx {tok l : List Char} (htok : tok ≠ []) :
    ¬ tok <:+: stripLineComment tok l := by
  induction l with
  | nil =>
    intro h
    exact htok (List.infix_nil.mp h)
  | cons c cs ih =>
    by_cases h : tok.isPrefixOf (c :: cs)
    · rw [stripLineComment, if_pos h]
      intro hi
      exact htok (List.infix_nil.mp hi)
    · rw [stripLineComment, if_neg h]
      intro hi
      rcases List.infix_cons_iff.mp hi with hp | hx
      · have h2 : c :: stripLineComment tok cs <+: c :: cs :=
          List.cons_prefix_cons.mpr ⟨rfl, slc_pfx tok cs⟩
        exact h (List.isPrefixOf_iff_prefix.mpr (hp.trans h2))
      · exact ih hx

theorem keepClean_eq_some {tok line : List Char} (h : ¬ tok <:+: line) :
    keepClean tok line = some line := by
  unfold keepClean
  rw [slc_eq_self h]
  cases hw : isAllWhite line <;> simp [hw]

theorem singleLineStep_eq_self {tok s : List Char} (h : ¬ tok <:+: s) :
    singleLineStep tok s = s := by
  have h1 : ∀ l ∈ splitNl s, keepClean tok l = some l := fun l hl =>
    keepClean_eq_some fun hi => h (hi.trans (mem_splitNl hl).2)
  unfold singleLineStep
  rw [filterMap_eq_self h1, joinNl_splitNl]

/-! ### The block pass -/

theorem tryBlockAt_none {pats : List (List Char × List Char)} {s : List Char}
    (h : ∀ q ∈ pats, ¬ q.1 <+: s) : tryBlockAt pats s = none := by
  induction pats with
  | nil => rfl
  | cons q rest ih =>
    obtain ⟨st, en⟩ := q
    have h1 : ¬ st.isPrefixOf s = true := fun hp =>
      h (st, en) (List.mem_cons_self _ _) (List.isPrefixOf_iff_prefix.mp hp)
    rw [tryBlockAt, if_neg h1]
    exact ih fun q hq => h q (List.mem_cons_of_mem _ hq)

theorem reSubBlockF_eq_self {pats : List (List Char × List Char)} :
    ∀ (fuel : Nat) (s : List Char), (∀ q ∈ pats, ¬ q.1 <:+: s) →
      reSubBlockF pats fuel s = s := by
  intro fuel
  induction fuel with
  | zero =>
    intro s _
    cases s <;> rfl
  | succ fuel ih =>
    intro s h
    cases s with
    | nil => rfl
    | cons c cs =>
      have h1 : tryBlockAt pats (c :: cs) = none :=
        tryBlockAt_none fun q hq hp => h q hq hp.isInfix
      simp only [reSubBlockF, h1]
      exact congrArg (c :: ·) (ih cs fun q hq hi => h q hq (List.infix_cons hi))

theorem reSubBlock_eq_self {pats : List (List Char × List Char)} {s : List Char}
    (h : ∀ q ∈ pats, ¬ q.1 <:+: s) : reSubBlock pats s = s :=
  reSubBlockF_eq_self s.length s h

/-! ### Blank-run collapsing -/

theorem collapseNlF_nil (fuel : Nat) : collapseNlF fuel [] = [] := by
  cases fuel <;> rfl

theorem take_two_eq {cs : List Char} (h : cs.take 2 = ['\n', '\n']) :
    ∃ rest, cs = '\n' :: '\n' :: rest := by
  rcases cs with _ | ⟨a, _ | ⟨b, r⟩⟩
  · simp [List.take] at h
  · simp [List.take] at h
  · refine ⟨r, ?_⟩
    simp [List.take] at h
    rw [h.1, h.2]

theorem two_nl_take {cs : List Char} (h : ['\n', '\n'] <+: cs) : cs.take 2 = ['\n', '\n'] := by
  obtain ⟨t, ht⟩ := h
  rw [← ht]
  rfl

theorem collapseNlF_branch {fuel : Nat} {c : Char} {cs : List Char}
    (h : c = '\n' ∧ cs.take 2 = ['\n', '\n']) :
    collapseNlF (fuel + 1) (c :: cs) = collapseNlF fuel cs := by
  simp only [collapseNlF, if_pos h]

theorem collapseNlF_step {fuel : Nat} {c : Char} {cs : List Char}
    (h : ¬ (c = '\n' ∧ cs.take 2 = ['\n', '\n'])) :
    collapseNlF (fuel + 1) (c :: cs) = c :: collapseNlF fuel cs := by
  simp only [collapseNlF, if_neg h]

theorem collapseNlF_cons (fuel : Nat) (c : Char) (cs : List Char) :
    ∃ z, collapseNlF fuel (c :: cs) = c :: z := by
  induction fuel generalizing c cs with
  | zero => exact ⟨cs, rfl⟩
  | succ fuel ih =>
    by_cases h : c = '\n' ∧ cs.take 2 = ['\n', '\n']
    · obtain ⟨rest, hrest⟩ := take_two_eq h.2
      rw [collapseNlF_branch h, hrest]
      obtain ⟨z, hz⟩ := ih '\n' ('\n' :: rest)
      exact ⟨z, by rw [hz, h.1]⟩
    · exact ⟨collapseNlF fuel cs, collapseNlF_step h⟩

theorem collapse_two_nl {fuel : Nat} {cs : List Char}
    (h : ['\n', '\n'] <+: collapseNlF fuel cs) : ['\n', '\n'] <+: cs := by
  induction fuel generalizing cs with
  | zero => exact h
  | succ fuel ih =>
    cases cs with
    | nil =>
      rw [collapseNlF_nil] at h
      exact absurd (List.prefix_nil.mp h) (by simp)
    | cons c cs2 =>
      by_cases hc : c = '\n' ∧ cs2.take 2 = ['\n', '\n']
      · obtain ⟨rest, hr⟩ := take_two_eq hc.2
        rw [hc.1, hr]
        exact ⟨'\n' :: rest, rfl⟩
      · rw [collapseNlF_step hc] at h
        obtain ⟨rfl, h2⟩ := List.cons_prefix_cons.mp h
        rcases cs2 with _ | ⟨a, cs3⟩
        · rw [collapseNlF_nil] at h2
          exact absurd (List.prefix_nil.mp h2) (by simp)
        · obtain ⟨z, hz⟩ := collapseNlF_cons fuel a cs3
          rw [hz] at h2
          obtain ⟨rfl, -⟩ := List.cons_prefix_cons.mp h2
          exact ⟨cs3, rfl⟩

theorem collapse_no_triple : ∀ (fuel : Nat) (s : List Char), s.length ≤ fuel →
    ¬ (['\n', '\n', '\n'] <:+: collapseNlF fuel s) := by
  intro fuel
  induction fuel with
  | zero =>
    intro s hs
    rw [List.length_eq_zero.mp (Nat.le_zero.mp hs)]
    intro h
    rw [collapseNlF_nil] at h
    exact absurd (List.infix_nil.mp h) (by simp)
  | succ fuel ih =>
    intro s hs
    cases s with
    | nil =>
      rw [collapseNlF_nil]
      intro h
      simp [List.infix_nil] at h
    | cons c cs =>
      have hcs : cs.length ≤ fuel := by
        simp only [List.length_cons] at hs
        omega
      by_cases hc : c = '\n' ∧ cs.take 2 = ['\n', '\n']
      · rw [collapseNlF_branch hc]
        exact ih cs hcs
      · rw [collapseNlF_step hc]
        intro h
        rcases List.infix_cons_iff.mp h with hp | hx
        · obtain ⟨hc1, h2⟩ := List.cons_prefix_cons.mp hp
          exact hc ⟨hc1.symm, two_nl_take (collapse_two_nl h2)⟩
        · exact ih cs hcs hx

theorem collapse_eq_self : ∀ (fuel : Nat) (s : List Char), s.length ≤ fuel →
    ¬ (['\n', '\n', '\n'] <:+: s) → collapseNlF fuel s = s := by
  intro fuel
  induction fuel with
  | zero =>
    intro s _ _
    rfl
  | succ fuel ih =>
    intro s hs h
    cases s with
    | nil => exact collapseNlF_nil _
    | cons c cs =>
      have hcs : cs.length ≤ fuel := by
        simp only [List.length_cons] at hs
        omega
      by_cases hc : c = '\n' ∧ cs.take 2 = ['\n', '\n']
      · exfalso
        obtain ⟨rest, hr⟩ := take_two_eq hc.2
        apply h
        rw [hc.1, hr]
        exact ⟨[], rest, rfl⟩
      · rw [collapseNlF_step hc]
        exact congrArg (c :: ·) (ih cs hcs fun hx => h (List.infix_cons hx))

theorem collapse_pfx : ∀ (fuel : Nat) (t s : List Char), '\n' ∉ t → s.length ≤ fuel →
    t <+: collapseNlF fuel s → t <+: s := by
  intro fuel
  induction fuel with
  | zero =>
    intro t s _ _ h
    exact h
  | succ fuel ih =>
    intro t s hnt hs h
    cases s with
    | nil =>
      rw [collapseNlF_nil] at h
      exact h
    | cons c cs =>
      have hcs : cs.length ≤ fuel := by
        simp only [List.length_cons] at hs
        omega
      by_cases hc : c = '\n' ∧ cs.take 2 = ['\n', '\n']
      · rw [collapseNlF_branch hc] at h
        obtain ⟨rest, hr⟩ := take_two_eq hc.2
        have h2 : t <+: cs := by
          rcases t with _ | ⟨a, t'⟩
          · exact ⟨cs, rfl⟩
          · exfalso
            rw [hr] at h
            obtain ⟨z, hz⟩ := collapseNlF_cons fuel '\n' ('\n' :: rest)
            rw [hz] at h
            obtain ⟨rfl, -⟩ := List.cons_prefix_cons.mp h
            exact hnt (List.mem_cons_self _ _)
        rcases t with _ | ⟨a, t'⟩
        · exact ⟨c :: cs, rfl⟩
        · exfalso
          rw [hr] at h2
          obtain ⟨rfl, -⟩ := List.cons_prefix_cons.mp h2
          exact hnt (List.mem_cons_self _ _)
      · rw [collapseNlF_step hc] at h
        rcases t with _ | ⟨a, t'⟩
        · exact ⟨c :: cs, rfl⟩
        · obtain ⟨rfl, h2⟩ := List.cons_prefix_cons.mp h
          have hnt' : '\n' ∉ t' := fun hx => hnt (List.mem_cons_of_mem _ hx)
          exact List.cons_prefix_cons.mpr ⟨rfl, ih t' cs hnt' hcs h2⟩

theorem collapse_ifx : ∀ (fuel : Nat) (t s : List Char), '\n' ∉ t → s.length ≤ fuel →
    t <:+: collapseNlF fuel s → t <:+: s := by
  intro fuel
  induction fuel with
  | zero =>
    intro t s _ _ h
    exact h
  | succ fuel ih =>
    intro t s hnt hs h
    cases s with
    | nil =>
      rw [collapseNlF_nil] at h
      exact h
    | cons c cs =>
      have hcs : cs.length ≤ fuel := by
        simp only [List.length_cons] at hs
        omega
      by_cases hc : c = '\n' ∧ cs.take 2 = ['\n', '\n']
      · rw [collapseNlF_branch hc] at h
        exact List.infix_cons (ih t cs hnt hcs h)
      · rw [collapseNlF_step hc] at h
        rcases List.infix_cons_iff.mp h with hp | hx
        · rcases t with _ | ⟨a, t'⟩
          · exact ⟨[], c :: cs, rfl⟩
          · obtain ⟨rfl, h2⟩ := List.cons_prefix_cons.mp hp
            have hnt' : '\n' ∉ t' := fun hy => hnt (List.mem_cons_of_mem _ hy)
            exact (List.cons_prefix_cons.mpr ⟨rfl, collapse_pfx fuel t' cs hnt' hcs h2⟩).isInfix
        · exact List.infix_cons (ih t cs hnt hcs hx)

theorem collapseNl_eq_self {s : List Char} (h : ¬ (['\n', '\n', '\n'] <:+: s)) :
    collapseNl s = s :=
  collapse_eq_self s.length s le_rfl h

theorem collapseNl_no_triple (s : List Char) : ¬ (['\n', '\n', '\n'] <:+: collapseNl s) :=
  collapse_no_triple s.length s le_rfl

theorem collapseNl_ifx {t s : List Char} (hnl : '\n' ∉ t) (h : t <:+: collapseNl s) :
    t <:+: s :=
  collapse_ifx s.length t s hnl le_rfl h

/-! ### The final strip -/

theorem pyStrip_ifx (l : List Char) : pyStrip l <:+: l := by
  unfold pyStrip
  have h1 : List.rdropWhile pyIsSpace (List.dropWhile pyIsSpace l) <+:
      List.dropWhile pyIsSpace l := List.rdropWhile_prefix _ _
  have h2 : List.dropWhile pyIsSpace l <:+ l := List.dropWhile_suffix _
  exact h1.isInfix.trans h2.isInfix

theorem pyStrip_idem (l : List Char) : pyStrip (pyStrip l) = pyStrip l := by
  unfold pyStrip
  have hdw : List.dropWhile pyIsSpace (List.dropWhile pyIsSpace l) =
      List.dropWhile pyIsSpace l := List.dropWhile_idempotent _ _
  have h1 : List.dropWhile pyIsSpace
      (List.rdropWhile pyIsSpace (List.dropWhile pyIsSpace l)) =
      List.rdropWhile pyIsSpace (List.dropWhile pyIsSpace l) := by
    rcases hR : List.rdropWhile pyIsSpace (List.dropWhile pyIsSpace l) with _ | ⟨b, R⟩
    · rfl
    · have hpfx : List.rdropWhile pyIsSpace (List.dropWhile pyIsSpace l) <+:
          List.dropWhile pyIsSpace l := List.rdropWhile_prefix _ _
      rw [hR] at hpfx
      obtain ⟨tail, htail⟩ := hpfx
      have hb : ¬ pyIsSpace b = true := by
        intro hb
        rw [← htail, List.cons_append, List.dropWhile_cons, if_pos hb] at hdw
        have hle : (List.dropWhile pyIsSpace (R ++ tail)).length ≤ (R ++ tail).length :=
          (List.dropWhile_suffix _).length_le
        have hlen := congrArg List.length hdw
        simp only [List.length_cons] at hlen
        omega
      rw [List.dropWhile_cons, if_neg hb]
  rw [h1]
  exact List.rdropWhile_idempotent _ _

/-! ### Token occurrences across joins -/

theorem pfx_through_sep {t M : List Char} : ∀ {l : List Char}, '\n' ∉ t → '\n' ∉ l →
    t <+: l ++ '\n' :: M → t <+: l := by
  intro l
  induction l generalizing t with
  | nil =>
    intro hnt _ h
    rcases t with _ | ⟨a, t'⟩
    · exact ⟨[], rfl⟩
    · obtain ⟨rfl, -⟩ := List.cons_prefix_cons.mp h
      exact absurd (List.mem_cons_self _ _) hnt
  | cons b l2 ih =>
    intro hnt hnl h
    rcases t with _ | ⟨a, t'⟩
    · exact ⟨b :: l2, rfl⟩
    · rw [List.cons_append] at h
      obtain ⟨rfl, h2⟩ := List.cons_prefix_cons.mp h
      have hnt' : '\n' ∉ t' := fun hx => hnt (List.mem_cons_of_mem _ hx)
      have hnl' : '\n' ∉ l2 := fun hx => hnl (List.mem_cons_of_mem _ hx)
      exact List.cons_prefix_cons.mpr ⟨rfl, ih hnt' hnl' h2⟩

theorem ifx_through_sep {t M : List Char} : ∀ {l : List Char}, '\n' ∉ t → '\n' ∉ l →
    t <:+: l ++ '\n' :: M → t <:+: l ∨ t <:+: M := by
  intro l
  induction l generalizing t with
  | nil =>
    intro hnt _ h
    rw [List.nil_append] at h
    rcases List.infix_cons_iff.mp h with hp | hx
    · rcases t with _ | ⟨a, t'⟩
      · exact Or.inl ⟨[], [], rfl⟩
      · obtain ⟨rfl, -⟩ := List.cons_prefix_cons.mp hp
        exact absurd (List.mem_cons_self _ _) hnt
    · exact Or.inr hx
  | cons b l2 ih =>
    intro hnt hnl h
    rw [List.cons_append] at h
    rcases List.infix_cons_iff.mp h with hp | hx
    · rcases t with _ | ⟨a, t'⟩
      · exact Or.inl ⟨[], b :: l2, rfl⟩
      · obtain ⟨rfl, h2⟩ := List.cons_prefix_cons.mp hp
        have hnt' : '\n' ∉ t' := fun hy => hnt (List.mem_cons_of_mem _ hy)
        have hnl' : '\n' ∉ l2 := fun hy => hnl (List.mem_cons_of_mem _ hy)
        exact Or.inl (List.cons_prefix_cons.mpr ⟨rfl, pfx_through_sep hnt' hnl' h2⟩).isInfix
    · have hnl' : '\n' ∉ l2 := fun hy => hnl (List.mem_cons_of_mem _ hy)
      rcases ih hnt hnl' hx with h1 | h2
      · exact Or.inl (List.infix_cons h1)
      · exact Or.inr h2

theorem tok_in_joinNl {t : List Char} : ∀ {L : List (List Char)}, '\n' ∉ t → t ≠ [] →
    (∀ l ∈ L, '\n' ∉ l) → t <:+: joinNl L → ∃ l ∈ L, t <:+: l := by
  intro L
  induction L with
  | nil =>
    intro _ ht _ h
    exact absurd (List.infix_nil.mp h) ht
  | cons l ls ih =>
    intro hnt ht hL h
    cases ls with
    | nil => exact ⟨l, List.mem_cons_self _ _, h⟩
    | cons l2 ls2 =>
      rw [joinNl_cons_cons] at h
      rcases ifx_through_sep hnt (hL l (List.mem_cons_self _ _)) h with h1 | h2
      · exact ⟨l, List.mem_cons_self _ _, h1⟩
      · obtain ⟨x, hx, hx2⟩ := ih hnt ht (fun y hy => hL y (List.mem_cons_of_mem _ hy)) h2
        exact ⟨x, List.mem_cons_of_mem _ hx, hx2⟩

/-! ### Registry profiles as named values (for concrete instantiations) -/

/-- The registry entry of `"Python"`. -/
def pyProfile : LangPatterns :=
  ⟨some "#".data, some [("\"\"\"".data, "\"\"\"".data), ([sq, sq, sq], [sq, sq, sq])]⟩

/-- The registry entry of `"C/C++/Java/C#/JavaScript/Rust"`. -/
def cProfile : LangPatterns :=
  ⟨some "//".data, some [("/*".data, "*/".data)]⟩

/-- The registry entry of `"HTML/XML"`. -/
def htmlProfile : LangPatterns :=
  ⟨none, some [("<!--".data, "-->".data)]⟩

theorem keepClean_some_eq {tok a l : List Char} (h : keepClean tok a = some l) :
    l = stripLineComment tok a := by
  unfold keepClean at h
  by_cases hc : (!(isAllWhite (stripLineComment tok a)) || isAllWhite a) = true
  · rw [if_pos hc] at h
    exact (Option.some.inj h).symm
  · rw [if_neg hc] at h
    exact absurd h (by simp)

theorem fst_mem_langTokens {p : LangPatterns} {bps : List (List Char × List Char)}
    (hm : p.multi_line = some bps) {q : List Char × List Char} (hq : q ∈ bps) :
    q.1 ∈ langTokens p := by
  unfold langTokens
  rw [hm]
  apply List.mem_append_right
  apply List.mem_append_left
  exact List.mem_map_of_mem Prod.fst hq

theorem single_mem_langTokens {p : LangPatterns} {t : List Char}
    (hs : p.single_line = some t) : t ∈ langTokens p := by
  unfold langTokens
  rw [hs]
  exact List.mem_append_left _ (List.mem_cons_self _ _)

example : remove_comments "x = 1  # set x\n\n\n\ndef f():\n    pass  # noop\n" "Python"
    = "x = 1  \n\ndef f():\n    pass" := by decide

example : remove_comments "int x = 1; // c\n/* b\nsp */\nint y = 2;" "C/C++/Java/C#/JavaScript/Rust"
    = "int x = 1; \n\nint y = 2;" := by decide

example : remove_comments "<div><!-- note -->\n<p>hi</p></div>" "HTML/XML"
    = "<div>\n<p>hi</p></div>" := by decide

example : remove_comments "print(1) -- hi\n--[[ long\nblock ]]\nprint(2)" "Lua"
    = "print(1) \n\nprint(2)" := by decide

example : get_language_from_filename "foo.PY" = "Python" := by decide

example : get_language_from_filename "foo.unknownext" = "Python" := by decide

example : get_language_from_filename "noext" = "Python" := by decide

example : get_language_from_filename "a/b.c.lua" = "Lua" := by decide

example : get_language_from_filename "dir.d/noext" = "Python" := by decide

example : remove_comments "abc" "Haskell" = "abc" := by decide

/-! ### The claims -/

/-- Claim C1: for every language identifier known to the registry,
`remove_comments` applied to a source text equals the four-step pipeline in
order: block removal, then the per-line single-line-comment removal and
line-keeping step, then collapsing of runs of three or more newlines to two,
then stripping of leading and trailing whitespace. -/
theorem C1_pipeline (language : String) (p : LangPatterns) (code : String)
    (h : patternsLookup language = some p) :
    remove_comments code language =
      String.mk (pyStrip (collapseNl (lineStep p (blockStep p code.data)))) := by
  simp only [remove_comments, h]
  rfl

/-- Witness for C1 at the Python scenario input. -/
theorem C1_pipeline_witness :
    remove_comments "x = 1  # set x\n\n\n\ndef f():\n    pass  # noop\n" "Python" =
      String.mk (pyStrip (collapseNl (lineStep pyProfile
        (blockStep pyProfile "x = 1  # set x\n\n\n\ndef f():\n    pass  # noop\n".data)))) :=
  C1_pipeline "Python" pyProfile "x = 1  # set x\n\n\n\ndef f():\n    pass  # noop\n" rfl

/-- Claim C2: an identifier unknown to the registry returns the input exactly
unchanged: no trimming, no blank-run collapsing, no failure. -/
theorem C2_unknown_identity (s U : String) (h : patternsLookup U = none) :
    remove_comments s U = s := by
  unfold remove_comments
  rw [h]

/-- Witness for C2 with the unknown identifier "Haskell" and an input that
the pipeline would otherwise have rewritten. -/
theorem C2_unknown_identity_witness :
    remove_comments " a#b\n\n\n\n c " "Haskell" = " a#b\n\n\n\n c " :=
  C2_unknown_identity " a#b\n\n\n\n c " "Haskell" rfl

/-- Claim C3: in the single-line pass a line is kept iff its cleaned form
still has non-whitespace content or the line was originally all whitespace;
hence an all-whitespace line stays, a non-blank line whose whole content was
a comment is dropped, and the kept cleaned lines are rejoined with newlines
in their original order. -/
theorem C3_line_keeping (tok s : List Char) :
    (singleLineStep tok s = joinNl ((splitNl s).filterMap (keepClean tok))) ∧
    (∀ line : List Char,
      keepClean tok line ≠ none ↔
        (isAllWhite (stripLineComment tok line) = false ∨ isAllWhite line = true)) ∧
    (∀ line : List Char, isAllWhite line = true → keepClean tok line ≠ none) ∧
    (∀ line : List Char, isAllWhite line = false →
      isAllWhite (stripLineComment tok line) = true → keepClean tok line = none) := by
  refine ⟨rfl, ?_, ?_, ?_⟩
  · intro line
    cases hc : isAllWhite (stripLineComment tok line) <;>
      cases hw : isAllWhite line <;> simp [keepClean, hc, hw]
  · intro line hw
    cases hc : isAllWhite (stripLineComment tok line) <;> simp [keepClean, hc, hw]
  · intro line hw hc
    simp [keepClean, hc, hw]

/-- Witness for C3: the all-whitespace line is kept, the comment-only line
is dropped. -/
theorem C3_line_keeping_witness :
    keepClean "#".data "   ".data ≠ none ∧ keepClean "#".data "# only".data = none :=
  ⟨(C3_line_keeping "#".data []).2.2.1 "   ".data (by decide),
   (C3_line_keeping "#".data []).2.2.2 "# only".data (by decide) (by decide)⟩

/-- Claim C4 as stated is false: on the Python scenario input the code does
not remove the two trailing spaces left on the first line where the comment
`# set x` was deleted, so the output is not the claimed string. -/
theorem C4_python_scenario_counterexample :
    remove_comments "x = 1  # set x\n\n\n\ndef f():\n    pass  # noop\n" "Python" ≠
      "x = 1\n\ndef f():\n    pass" := by
  decide

/-- Claim C4 amended: the scenario output keeps the trailing spaces of the
interior line whose comment was removed; only the whole-result trim strips
the whitespace at the two ends of the string. -/
theorem C4_python_scenario_amended :
    remove_comments "x = 1  # set x\n\n\n\ndef f():\n    pass  # noop\n" "Python" =
      "x = 1  \n\ndef f():\n    pass" := by
  decide

/-- Claim C5: for a known language and a text containing no occurrence of
any of its comment tokens, `remove_comments` is exactly blank-run collapsing
followed by the final trim. -/
theorem C5_no_tokens (language : String) (p : LangPatterns) (code : String)
    (h : patternsLookup language = some p)
    (htok : ∀ t ∈ langTokens p, ¬ (t <:+: code.data)) :
    remove_comments code language = String.mk (pyStrip (collapseNl code.data)) := by
  have hval : remove_comments code language = String.mk (removeCommentsCore p code.data) := by
    simp only [remove_comments, h]
  rw [hval]
  unfold removeCommentsCore
  have hb : blockStep p code.data = code.data := by
    cases hm : p.multi_line with
    | none =>
      unfold blockStep
      rw [hm]
    | some bps =>
      unfold blockStep
      rw [hm]
      exact reSubBlock_eq_self fun q hq => htok q.1 (fst_mem_langTokens hm hq)
  have hl : lineStep p (blockStep p code.data) = code.data := by
    rw [hb]
    cases hs : p.single_line with
    | none =>
      unfold lineStep
      rw [hs]
    | some t =>
      unfold lineStep
      rw [hs]
      exact singleLineStep_eq_self (htok t (single_mem_langTokens hs))
  rw [hl]

/-- Witness for C5 on a Python text with blank runs and trailing blanks but
no comment tokens. -/
theorem C5_no_tokens_witness :
    remove_comments "ab\n\n\n\ncd " "Python" =
      String.mk (pyStrip (collapseNl "ab\n\n\n\ncd ".data)) :=
  C5_no_tokens "Python" pyProfile "ab\n\n\n\ncd " rfl (by decide)

/-- Claim C6: for a language profile that defines only a single-line pattern
(and no block pattern) the transformation is idempotent.  No registry entry
has such a profile, so the statement quantifies over profiles
`⟨some tok, none⟩` with a non-empty newline-free token, which covers every
single-line token shape of the registry. -/
theorem C6_single_only_idempotent (tok s : List Char)
    (ht : tok ≠ []) (hnl : '\n' ∉ tok) :
    removeCommentsCore ⟨some tok, none⟩ (removeCommentsCore ⟨some tok, none⟩ s) =
      removeCommentsCore ⟨some tok, none⟩ s := by
  have hKfree : ∀ l ∈ (splitNl s).filterMap (keepClean tok), ¬ tok <:+: l ∧ '\n' ∉ l := by
    intro l hl
    obtain ⟨a, ha, hal⟩ := List.mem_filterMap.mp hl
    have hla : l = stripLineComment tok a := keepClean_some_eq hal
    constructor
    · rw [hla]
      exact slc_not_ifx ht
    · intro hx
      apply (mem_splitNl ha).1
      apply (slc_pfx tok a).subset
      rw [← hla]
      exact hx
  have hXfree : ¬ tok <:+: singleLineStep tok s := by
    intro hx
    unfold singleLineStep at hx
    obtain ⟨l, hl, hlx⟩ :=
      tok_in_joinNl hnl ht (fun l hl => (hKfree l hl).2) hx
    exact (hKfree l hl).1 hlx
  have hCfree : ¬ tok <:+: collapseNl (singleLineStep tok s) := by
    intro hx
    exact hXfree (collapse_ifx _ tok _ hnl le_rfl hx)
  have hr : removeCommentsCore ⟨some tok, none⟩ s =
      pyStrip (collapseNl (singleLineStep tok s)) := rfl
  have hfree : ¬ tok <:+: removeCommentsCore ⟨some tok, none⟩ s := by
    rw [hr]
    intro hx
    exact hCfree (hx.trans (pyStrip_ifx _))
  have hnotriple : ¬ (['\n', '\n', '\n'] <:+: removeCommentsCore ⟨some tok, none⟩ s) := by
    rw [hr]
    intro hx
    exact collapse_no_triple _ _ le_rfl (hx.trans (pyStrip_ifx _))
  have hstep : removeCommentsCore ⟨some tok, none⟩ (removeCommentsCore ⟨some tok, none⟩ s) =
      pyStrip (collapseNl (singleLineStep tok (removeCommentsCore ⟨some tok, none⟩ s))) := rfl
  rw [hstep, singleLineStep_eq_self hfree, collapseNl_eq_self hnotriple, hr, pyStrip_idem]

/-- Witness for C6 with the token `#` and an input with a comment line and a
blank run. -/
theorem C6_single_only_idempotent_witness :
    removeCommentsCore ⟨some "#".data, none⟩
        (removeCommentsCore ⟨some "#".data, none⟩ "a # b\n\n\n\nc".data) =
      removeCommentsCore ⟨some "#".data, none⟩ "a # b\n\n\n\nc".data :=
  C6_single_only_idempotent "#".data "a # b\n\n\n\nc".data (by decide) (by decide)

/-- Claim C7: `get_language_from_filename` is total: it equals the lookup
of the lowercased extracted extension with default `"Python"` on every
filename, it maps every registered extension to its identifier, and the
three concrete cases of the claim hold. -/
theorem C7_extension_lookup :
    (∀ f : String, get_language_from_filename f =
      (List.lookup (String.mk ((splitextExt f.data).map Char.toLower))
        extension_map).getD "Python") ∧
    extension_map.all
      (fun kv => get_language_from_filename ("file" ++ kv.1) == kv.2) = true ∧
    get_language_from_filename "foo.PY" = "Python" ∧
    get_language_from_filename "foo.unknownext" = "Python" ∧
    get_language_from_filename "noext" = "Python" :=
  ⟨fun _ => rfl, by decide, by decide, by decide, by decide⟩

/-- Claim C8 as stated is false: the single-line pass has no notion of an
escape character.  On the line `a \# b`, whose only `#` is preceded by a
backslash, the pass still strips from that `#`, and so does the whole
pipeline. -/
theorem C8_escape_counterexample :
    stripLineComment "#".data "a \\# b".data = "a \\".data ∧
    stripLineComment "#".data "a \\# b".data ≠ "a \\# b".data ∧
    remove_comments "a \\# b" "Python" = "a \\" := by
  refine ⟨by decide, by decide, by decide⟩

/-- Claim C8 amended: the single-line pass strips everything from the first
occurrence of the line-comment token to the end of the line, whether or not
that occurrence is preceded by an escape character, and leaves a line
without the token unchanged. -/
theorem C8_first_occurrence (tok l : List Char) :
    (¬ tok <:+: l → stripLineComment tok l = l) ∧
    (tok <:+: l → ∃ i, stripLineComment tok l = l.take i ∧ tok <+: l.drop i ∧
      ∀ j < i, ¬ tok <+: l.drop j) := by
  refine ⟨slc_eq_self, ?_⟩
  induction l with
  | nil =>
    intro h
    have ht : tok = [] := List.infix_nil.mp h
    exact ⟨0, rfl, by rw [ht]; exact ⟨[], rfl⟩, fun j hj => absurd hj (by omega)⟩
  | cons c cs ih =>
    intro h
    by_cases hp : tok.isPrefixOf (c :: cs) = true
    · refine ⟨0, ?_, ?_, fun j hj => absurd hj (by omega)⟩
      · rw [stripLineComment, if_pos hp]
        rfl
      · exact List.isPrefixOf_iff_prefix.mp hp
    · have hx : tok <:+: cs := by
        rcases List.infix_cons_iff.mp h with hpre | hx
        · exact absurd (List.isPrefixOf_iff_prefix.mpr hpre) hp
        · exact hx
      obtain ⟨i, h1, h2, h3⟩ := ih hx
      refine ⟨i + 1, ?_, ?_, ?_⟩
      · rw [stripLineComment, if_neg hp, h1, List.take_succ_cons]
      · rw [List.drop_succ_cons]
        exact h2
      · intro j hj
        cases j with
        | zero =>
          intro hcon
          exact hp (List.isPrefixOf_iff_prefix.mpr hcon)
        | succ j2 =>
          rw [List.drop_succ_cons]
          exact h3 j2 (by omega)

/-- Witness for C8 on the line with an escaped token occurrence. -/
theorem C8_first_occurrence_witness :
    ∃ i, stripLineComment "#".data "a \\# b".data = "a \\# b".data.take i ∧
      "#".data <+: "a \\# b".data.drop i ∧
      ∀ j < i, ¬ "#".data <+: "a \\# b".data.drop j :=
  (C8_first_occurrence "#".data "a \\# b".data).2 (by decide)

/-- Claim C9: for a language whose profile has no single-line pattern the
line-filtering pass is skipped entirely, so the result is just block
removal, collapsing and trim; in particular a line emptied by block removal
survives as a blank line. -/
theorem C9_no_single_line (language : String) (p : LangPatterns) (code : String)
    (h : patternsLookup language = some p) (hs : p.single_line = none) :
    remove_comments code language =
      String.mk (pyStrip (collapseNl (blockStep p code.data))) := by
  have hval : remove_comments code language = String.mk (removeCommentsCore p code.data) := by
    simp only [remove_comments, h]
  rw [hval]
  unfold removeCommentsCore lineStep
  rw [hs]

/-- Witness for C9: for HTML/XML the pipeline has no line filtering, and a
line wholly deleted by block removal stays as an empty line. -/
theorem C9_no_single_line_witness :
    remove_comments "a\n<!-- x -->\nb" "HTML/XML" =
      String.mk (pyStrip (collapseNl (blockStep htmlProfile "a\n<!-- x -->\nb".data))) ∧
    remove_comments "a\n<!-- x -->\nb" "HTML/XML" = "a\n\nb" :=
  ⟨C9_no_single_line "HTML/XML" htmlProfile "a\n<!-- x -->\nb" rfl rfl, by decide⟩

/-- Claim C10: for every input and known language the result is its own
trim, contains no run of three or more newlines, and the empty input maps
to the empty output. -/
theorem C10_output_invariants (code language : String) (p : LangPatterns)
    (h : patternsLookup language = some p) :
    pyStrip (remove_comments code language).data = (remove_comments code language).data ∧
    ¬ (['\n', '\n', '\n'] <:+: (remove_comments code language).data) ∧
    remove_comments "" language = "" := by
  have hval : remove_comments code language =
      String.mk (pyStrip (collapseNl (lineStep p (blockStep p code.data)))) := by
    simp only [remove_comments, h]
    rfl
  refine ⟨?_, ?_, ?_⟩
  · rw [hval]
    exact pyStrip_idem _
  · rw [hval]
    intro htriple
    exact collapseNl_no_triple _ (htriple.trans (pyStrip_ifx _))
  · have h0 : remove_comments "" language = String.mk (removeCommentsCore p "".data) := by
      simp only [remove_comments, h]
    rw [h0]
    rcases p with ⟨sl, ml⟩
    rcases sl with _ | tok <;> rcases ml with _ | bps <;> rfl

/-- Witness for C10 on a Python input with comments, blank runs and edge
whitespace. -/
theorem C10_output_invariants_witness :
    pyStrip (remove_comments " a#b\n\n\n\n c " "Python").data =
      (remove_comments " a#b\n\n\n\n c " "Python").data ∧
    ¬ (['\n', '\n', '\n'] <:+: (remove_comments " a#b\n\n\n\n c " "Python").data) ∧
    remove_comments "" "Python" = "" :=
  C10_output_invariants " a#b\n\n\n\n c " "Python" pyProfile rfl

end CommentRemover
